import Mathlib

/-!
Verification of the state-tree transition engine of the `game_state_js`
repository.

The development shallowly embeds the authoritative variant of the engine:
`StateTree` from `src/lib/event_provider/index.js` (the variant with the
cascade-limit guard and the post-enter / post-update phases) together with
`GameState` from `src/lib/state_tree/game_state/index.js` (the first variant
in that file, the one with parameterised system records).

Modelling notes, each justified at the definition it concerns:
* JavaScript object identity between `GameState` nodes is modelled by
  structural equality of `GS` values; in a resolved tree every node is a
  distinct object with a distinct name, so the two coincide.
* System lifecycle callbacks are modelled by the events they emit plus the
  single externally visible effect a callback can have on the engine: a
  `changeState` request (`StateRef.apply` calls `stateTree.changeState`).
* `GameState.onPostEnter` and `GameState.onPostUpdate` are invoked by
  `StateTree` but are defined nowhere under `src/`; they are modelled from
  the spec and marked as such in their doc comments.
-/

/-- A system (logic unit) attached to a game state, reduced to the data the
claims need: its instance name, the transition request its `onActivate`
callback issues (none for a passive system), the request its `onUpdate`
callback issues, and whether it implements the optional `onUpdate` /
`onPostUpdate` callbacks (the source checks `if (system.o.onUpdate)`). -/
structure SystemDef where
  name : String
  activateRequest : Option String
  updateRequest : Option String
  hasUpdate : Bool
  hasPostUpdate : Bool
deriving DecidableEq, Repr

/-- Externally observable lifecycle callback invocations. -/
inductive Ev where
  | activate (unit : String)
  | deactivate (unit : String)
  | postActivate (unit : String)
  | update (unit : String)
  | postUpdate (unit : String)
deriving DecidableEq, Repr

/-- A `GameState` node together with its parent chain.  The source stores a
back-reference `this.parent` (null for a root); embedding the parent chain
into the value makes the upward recursions of `onEnter`, `onExit`,
`checkParentHierarchy` and `findCommonAncestor` structural.  `systems` is
`this.gameSystems` in `Map` insertion order (attachment order). -/
inductive GS where
  | root (name : String) (systems : List SystemDef)
  | child (name : String) (systems : List SystemDef) (parent : GS)
deriving DecidableEq, Repr

/-- The node's `name`. -/
def GS.name : GS → String
  | .root n _ => n
  | .child n _ _ => n

/-- The node's attached systems in attachment order (`this.gameSystems.values()`). -/
def GS.systems : GS → List SystemDef
  | .root _ s => s
  | .child _ s _ => s

/-- The node's `this.parent` back-reference (`null` becomes `none`). -/
def GS.parent : GS → Option GS
  | .root _ _ => none
  | .child _ _ p => some p

/-- The node followed by its ancestors up to the root, i.e. the parent chain
the upward recursions of the source walk. -/
def GS.chain : GS → List GS
  | .root n s => [.root n s]
  | .child n s p => .child n s p :: p.chain

/-- Chain of an optional node: the empty list for `none`. -/
def chainO : Option GS → List GS
  | none => []
  | some g => g.chain

/-- Embeds `GameState.checkParentHierarchy(state)`: true when `state` is this
node or lies in its parent hierarchy (`this === state` is value equality, see
the identity note in the header). -/
def GS.checkParentHierarchy : GS → GS → Bool
  | .root n s, st => ((GS.root n s : GS) = st : Bool)
  | .child n s p, st =>
      if (GS.child n s p : GS) = st then true else p.checkParentHierarchy st

/-- Embeds the lock-step scan loop of `StateTree.findCommonAncestor`.  The
source loop `while (scanA && scanB)` terminates because each scan pointer
walks a finite parent chain; the embedding makes that explicit with a fuel
argument that `findCommonAncestor` instantiates with the length of `stateA`'s
chain, which is more than the number of iterations the loop can make before
`scanA` runs off the end of the chain. -/
def fcaLoop (A B : GS) : Nat → Option GS → Option GS → Option GS
  | 0, _, _ => none
  | f + 1, some sa, some sb =>
      if B.checkParentHierarchy sa then some sa
      else if A.checkParentHierarchy sb then some sb
      else fcaLoop A B f sa.parent sb.parent
  | _ + 1, none, _ => none
  | _ + 1, some _, none => none

/-- Embeds `StateTree.findCommonAncestor(stateA, stateB)` (the null-argument
throws are outside the total model: both arguments are always nodes). -/
def findCommonAncestor (A B : GS) : Option GS :=
  if A = B then some A else fcaLoop A B A.chain.length A.parent B.parent

/-- The systems activated by `GameState.onEnter(branchRoot)`, in invocation
order: the recursion enters the parent first (when a parent exists and is not
the branch root) and then activates this node's own systems in attachment
order. -/
def GS.onEnterUnits : GS → Option GS → List SystemDef
  | .root _ s, _ => s
  | .child _ s p, branchRoot =>
      (if some p ≠ branchRoot then p.onEnterUnits branchRoot else []) ++ s

/-- Embeds `GameState.onEnter(branchRoot)` as the list of `onActivate`
invocations it performs. -/
def GS.onEnter (g : GS) (branchRoot : Option GS) : List Ev :=
  (g.onEnterUnits branchRoot).map (fun d => Ev.activate d.name)

/-- Embeds `GameState.onExit(branchRoot)` as the list of `onDeactivate`
invocations it performs.  The source intends to deactivate the node's systems
in reverse attachment order, but it reads `this.gameSystems.values().length`:
`Map.prototype.values()` returns an iterator with no `length` property, so the
loop bound is `NaN`, `NaN >= 0` is false, and the deactivation loop body never
executes.  Only the parent recursion (`if (this.parent && this.parent !==
branchRoot)`) remains, and it contributes no events either, so the cascade
invokes no callbacks at all. -/
def GS.onExit : GS → Option GS → List Ev
  | .root _ _, _ => []
  | .child _ _ p, branchRoot =>
      if some p ≠ branchRoot then p.onExit branchRoot else []

/-- Modelled from the spec: `GameState.onPostEnter` is invoked by
`StateTree.commitStateChange` (`pendingState.onPostEnter(rootState)`) but is
defined nowhere under `src/`.  Per the spec it mirrors the enter cascade,
invoking a second post-activate callback per unit: parent first when the
parent exists and is not the branch root, then this node's own systems in
attachment order. -/
def GS.onPostEnter : GS → Option GS → List Ev
  | .root _ s, _ => s.map (fun d => Ev.postActivate d.name)
  | .child _ s p, branchRoot =>
      (if some p ≠ branchRoot then p.onPostEnter branchRoot else [])
        ++ s.map (fun d => Ev.postActivate d.name)

/-- The systems whose `onUpdate` callback is invoked by
`GameState.onUpdate(updateArgs)`, in invocation order: the recursion updates
the parent first (`if (this.parent) this.parent.onUpdate(updateArgs)`), then
this node's own systems that implement the optional `onUpdate` callback. -/
def GS.onUpdateUnits : GS → List SystemDef
  | .root _ s => s.filter (fun d => d.hasUpdate)
  | .child _ s p => p.onUpdateUnits ++ s.filter (fun d => d.hasUpdate)

/-- Modelled from the spec: `GameState.onPostUpdate` is invoked by
`StateTree.onUpdate` but is defined nowhere under `src/`.  Per the spec it is
a second pass in the same order as the primary update pass, invoking the
optional post-update callback. -/
def GS.onPostUpdateUnits : GS → List SystemDef
  | .root _ s => s.filter (fun d => d.hasPostUpdate)
  | .child _ s p => p.onPostUpdateUnits ++ s.filter (fun d => d.hasPostUpdate)

/-- The errors the engine throws, by the taxonomy of the spec.  The source
throws plain `Error` objects with distinguishing messages; the constructor
names follow the messages at the cited throw sites. -/
inductive Err where
  | argument
  | missingNode
  | notLeaf
  | cascadeLimit
deriving DecidableEq, Repr

/-- The mutable state of a `StateTree`: `stateMap` values in insertion order,
plus the `activeState` / `pendingState` / `defaultState` pointers. -/
structure STree where
  states : List GS
  activeState : Option GS
  pendingState : Option GS
  defaultState : Option GS
deriving DecidableEq, Repr

/-- Embeds `StateTree.getState(name)` (`this.stateMap.get(name)`). -/
def getState (t : STree) (n : String) : Option GS :=
  t.states.find? (fun s => s.name = n)

/-- Whether a node has children in the resolved tree.  The source stores a
`children` map per node, populated by `resolveChildren`, which also sets each
child's `parent` back-reference to exactly that node, so in a resolved tree
`state.children.size != 0` holds exactly when some node of the tree has
`state` as its parent. -/
def hasChildren (states : List GS) (g : GS) : Bool :=
  states.any (fun s => s.parent = some g)

/-- Embeds `StateTree.changeState(stateName)`: throws on a missing name, an
unknown state, and a non-leaf state, otherwise records the state as pending.
The `process.nextTick` scheduling of `_onApplyTick` is out-of-band plumbing
that only ever calls `commitStateChange`; it is not part of the synchronous
model. -/
def changeState (t : STree) (n : String) : Except Err STree :=
  if n = "" then .error .argument
  else
    match getState t n with
    | none => .error .missingNode
    | some st =>
        if hasChildren t.states st then .error .notLeaf
        else .ok { t with pendingState := some st }

/-- Runs the `onActivate` callbacks of the given systems in order.  Each
callback emits its activate event and, when the system's behaviour issues a
transition request (`StateRef.apply` calling `stateTree.changeState`),
performs that request; a request that throws propagates out of the cascade. -/
def runActivations (t : STree) : List SystemDef → Except Err (STree × List Ev)
  | [] => .ok (t, [])
  | d :: rest =>
      match d.activateRequest with
      | none =>
          match runActivations t rest with
          | .error e => .error e
          | .ok (t2, evs) => .ok (t2, Ev.activate d.name :: evs)
      | some r =>
          match changeState t r with
          | .error e => .error e
          | .ok t1 =>
              match runActivations t1 rest with
              | .error e => .error e
              | .ok (t2, evs) => .ok (t2, Ev.activate d.name :: evs)

/-- Runs the `onUpdate` callbacks of the given systems in order, analogously
to `runActivations` (an update callback can request a transition through
`UpdateArgs`). -/
def runUpdates (t : STree) : List SystemDef → Except Err (STree × List Ev)
  | [] => .ok (t, [])
  | d :: rest =>
      match d.updateRequest with
      | none =>
          match runUpdates t rest with
          | .error e => .error e
          | .ok (t2, evs) => .ok (t2, Ev.update d.name :: evs)
      | some r =>
          match changeState t r with
          | .error e => .error e
          | .ok t1 =>
              match runUpdates t1 rest with
              | .error e => .error e
              | .ok (t2, evs) => .ok (t2, Ev.update d.name :: evs)

/-- The branch root computed for a taken transition to `p`:
`findCommonAncestor(activeState, pendingState)` when there is a previous
active state, otherwise null (first-ever commit). -/
def stepRoot (t : STree) (p : GS) : Option GS :=
  match t.activeState with
  | some a => findCommonAncestor a p
  | none => none

/-- Embeds one taken transition of the `commitStateChange` loop body for a
pending state `p` that differs from the active state: compute the branch
root, run the old active state's exit cascade, set `activeState = p`, run the
enter cascade (whose activations may request further transitions), then the
post-enter cascade. -/
def stepTake (t : STree) (p : GS) : Except Err (STree × List Ev) :=
  let root := stepRoot t p
  let exitEvs := match t.activeState with
                 | some a => a.onExit root
                 | none => []
  let t1 := { t with activeState := some p }
  match runActivations t1 (p.onEnterUnits root) with
  | .error e => .error e
  | .ok (t2, enterEvs) => .ok (t2, exitEvs ++ enterEvs ++ p.onPostEnter root)

/-- The bound `MAXIMUM_STATE_CHANGES` on transitions taken within one
`commitStateChange` call. -/
def MAXIMUM_STATE_CHANGES : Nat := 10

/-- Embeds the `while (stateTree.pendingState)` loop of
`StateTree.commitStateChange` with the per-call counter: each iteration first
fails with the cascade-limit error when the counter would exceed the bound,
then atomically takes and clears `pendingState`; a taken state equal to the
active state does nothing further this iteration, otherwise the transition is
performed by `stepTake`.  The remaining-iterations argument starts at
`MAXIMUM_STATE_CHANGES`, matching `if (++counter > MAXIMUM_STATE_CHANGES)
throw`. -/
def commitAux : STree → Nat → Except Err (STree × List Ev)
  | t, n =>
      match t.pendingState with
      | none => .ok (t, [])
      | some p =>
          match n with
          | 0 => .error .cascadeLimit
          | m + 1 =>
              let t1 := { t with pendingState := none }
              if t.activeState = some p then commitAux t1 m
              else
                match stepTake t1 p with
                | .error e => .error e
                | .ok (t2, evs) =>
                    match commitAux t2 m with
                    | .error e => .error e
                    | .ok (t3, evs2) => .ok (t3, evs ++ evs2)

/-- Embeds `StateTree.commitStateChange(stateTree)`. -/
def commitStateChange (t : STree) : Except Err (STree × List Ev) :=
  commitAux t MAXIMUM_STATE_CHANGES

/-- Pure simulation of exactly the first `n` takes of the commit loop,
without the cascade-limit counter; used to state what "a commit that takes at
most / more than `n` transitions" means. -/
def runTakes : STree → Nat → Except Err STree
  | t, 0 => .ok t
  | t, m + 1 =>
      match t.pendingState with
      | none => .ok t
      | some p =>
          let t1 := { t with pendingState := none }
          if t.activeState = some p then runTakes t1 m
          else
            match stepTake t1 p with
            | .error e => .error e
            | .ok (t2, _) => runTakes t2 m

/-- Embeds `StateTree.onUpdate(updateArgs)`: commit any pending transition,
then, when there is an active state, run its per-frame update cascade and its
post-update cascade, then commit again. -/
def treeOnUpdate (t : STree) : Except Err (STree × List Ev) :=
  match commitStateChange t with
  | .error e => .error e
  | .ok (t1, e1) =>
      match t1.activeState with
      | none =>
          match commitStateChange t1 with
          | .error e => .error e
          | .ok (t2, e2) => .ok (t2, e1 ++ e2)
      | some a =>
          match runUpdates t1 a.onUpdateUnits with
          | .error e => .error e
          | .ok (t2, eU) =>
              let ePU := a.onPostUpdateUnits.map (fun d => Ev.postUpdate d.name)
              match commitStateChange t2 with
              | .error e => .error e
              | .ok (t3, e2) => .ok (t3, e1 ++ eU ++ ePU ++ e2)

/-- Embeds the transition-relevant tail of `StateTree.onInitialize`: after
resolving the hierarchy it sets `pendingState = this.defaultState` and calls
`commitStateChange` (the per-system one-time initialisation callbacks do not
touch the active/pending model). -/
def onInit (t : STree) : Except Err (STree × List Ev) :=
  commitStateChange { t with pendingState := t.defaultState }

/-- Embeds the default-state selection of the `StateTree` constructor:
`desc.main || desc.states[0].name` — the explicitly named main state when
given, otherwise the name of the first state of the description, with no
check that either is a leaf. -/
def selectDefaultName (main : Option String) (stateNames : List String) : Option String :=
  match main with
  | some m => some m
  | none => stateNames.head?

/-- Whether an optional active/pending/default pointer is none or a leaf. -/
def okLeafB (states : List GS) : Option GS → Bool
  | none => true
  | some g => !hasChildren states g

/-- The leaf invariant on all three state pointers of a tree. -/
def leafInvB (t : STree) : Bool :=
  okLeafB t.states t.activeState &&
    okLeafB t.states t.pendingState && okLeafB t.states t.defaultState

/-- One externally invocable operation of the engine, as a step relation on
trees: a transition request, a commit, a per-frame update, or the
initialisation commit. -/
inductive TreeStep : STree → STree → Prop where
  | change (t t' : STree) (n : String) : changeState t n = .ok t' → TreeStep t t'
  | commit (t t' : STree) (evs : List Ev) :
      commitStateChange t = .ok (t', evs) → TreeStep t t'
  | update (t t' : STree) (evs : List Ev) :
      treeOnUpdate t = .ok (t', evs) → TreeStep t t'
  | init (t t' : STree) (evs : List Ev) : onInit t = .ok (t', evs) → TreeStep t t'

/-- Reachability through any sequence of engine operations. -/
def Reaches : STree → STree → Prop := Relation.ReflTransGen TreeStep

/-- A passive system: no optional callbacks, no transition requests. -/
def passiveSys (n : String) : SystemDef :=
  { name := n, activateRequest := none, updateRequest := none,
    hasUpdate := false, hasPostUpdate := false }

/-- A system implementing the optional per-frame callbacks. -/
def frameSys (n : String) : SystemDef :=
  { name := n, activateRequest := none, updateRequest := none,
    hasUpdate := true, hasPostUpdate := true }

/-- A system whose `onActivate` unconditionally requests a transition to the
named state, like a unit applying a `StateRef` from its activate callback. -/
def flipSys (n : String) (target : String) : SystemDef :=
  { name := n, activateRequest := some target, updateRequest := none,
    hasUpdate := false, hasPostUpdate := false }

/-- Example node for the exit-cascade claim: a single state with two attached
units. -/
def exMenu : GS := GS.root "menu" [passiveSys "u1", passiveSys "u2"]

/-- Example hierarchy root carrying a per-frame unit. -/
def exMain : GS := GS.root "main_state" [frameSys "mainUnit"]

/-- Example leaf under `exMain` carrying a per-frame unit. -/
def exChild1 : GS := GS.child "child1" [frameSys "childUnit"] exMain

/-- Example tree whose active state is the leaf `child1`. -/
def exFrameTree : STree :=
  { states := [exMain, exChild1], activeState := some exChild1,
    pendingState := none, defaultState := some exChild1 }

/-- Flip-flop tree, state `X`: its unit requests `Y` on every activation. -/
def ffX : GS := GS.root "X" [flipSys "ux" "Y"]

/-- Flip-flop tree, state `Y`: its unit requests `X` on every activation. -/
def ffY : GS := GS.root "Y" [flipSys "uy" "X"]

/-- A tree whose two leaves ping-pong transition requests from their activate
callbacks forever. -/
def ffTree : STree :=
  { states := [ffX, ffY], activeState := none,
    pendingState := some ffX, defaultState := some ffX }

/-- The flip-flop tree after ten simulated takes: still one more pending. -/
def ffFinal : STree :=
  { states := [ffX, ffY], activeState := some ffY,
    pendingState := some ffX, defaultState := some ffX }

/-- Shared ancestor for the branch-transition examples, with its own unit. -/
def exShared : GS := GS.root "shared" [passiveSys "sharedUnit"]

/-- Leaf `a` under the shared ancestor. -/
def exLeafA : GS := GS.child "a" [passiveSys "unitA"] exShared

/-- Leaf `b` under the shared ancestor. -/
def exLeafB : GS := GS.child "b" [passiveSys "unitB"] exShared

/-- Tree with two sibling leaves below one shared ancestor, `a` active. -/
def exSibTree : STree :=
  { states := [exShared, exLeafA, exLeafB], activeState := some exLeafA,
    pendingState := none, defaultState := some exLeafA }

/-- `exSibTree` with a pending self-transition to the active leaf. -/
def exSelfTree : STree :=
  { states := [exShared, exLeafA, exLeafB], activeState := some exLeafA,
    pendingState := some exLeafA, defaultState := some exLeafA }

/-- `exSibTree` with a pending transition to the sibling leaf `b`. -/
def exSwitchTree : STree :=
  { states := [exShared, exLeafA, exLeafB], activeState := some exLeafA,
    pendingState := some exLeafB, defaultState := some exLeafA }

/-- `exSibTree` after the transition to `b` has been taken. -/
def exAfterSwitch : STree :=
  { states := [exShared, exLeafA, exLeafB], activeState := some exLeafB,
    pendingState := none, defaultState := some exLeafA }

/-- A fresh tree (as after construction) whose leaf default satisfies the
leaf invariant. -/
def exFreshTree : STree :=
  { states := [exShared, exLeafA, exLeafB], activeState := none,
    pendingState := none, defaultState := some exLeafA }

/-- Root of the description whose *first* state is not a leaf. -/
def badRoot : GS := GS.root "root" []

/-- The only leaf of the bad description, child of `badRoot`. -/
def badKid : GS := GS.child "kid" [] badRoot

/-- Tree built from a description that names no main state and whose first
state `root` has a child, so the constructor selects the non-leaf `root` as
the default state. -/
def badTree : STree :=
  { states := [badRoot, badKid], activeState := none,
    pendingState := none, defaultState := some badRoot }

/-- Three-node parent chain for the common-ancestor asymmetry example. -/
def chP : GS := GS.root "P" []

/-- Middle node of the chain, child of `chP`. -/
def chA : GS := GS.child "A" [] chP

/-- Deepest node of the chain, child of `chA`. -/
def chB : GS := GS.child "B" [] chA

/-- A node's chain starts with the node itself, followed by the chain of its
optional parent. -/
theorem GS.chain_eq (g : GS) : g.chain = g :: chainO g.parent := by
  cases g <;> simp [GS.chain, GS.parent, chainO]

/-- Every node lies on its own chain. -/
theorem GS.self_mem_chain (g : GS) : g ∈ g.chain := by
  rw [g.chain_eq]; exact List.mem_cons_self g _

/-- Chains are never empty. -/
theorem GS.chain_ne_nil (g : GS) : g.chain ≠ [] := by
  rw [g.chain_eq]; simp

/-- The head of a chain determines the node. -/
theorem GS.chain_head (g x : GS) (l : List GS) (h : g.chain = x :: l) : x = g := by
  rw [g.chain_eq] at h
  exact (List.cons.injEq _ _ _ _ ▸ h).1.symm

/-- `checkParentHierarchy` decides membership of the parent chain. -/
theorem GS.cph_iff (g x : GS) :
    g.checkParentHierarchy x = true ↔ x ∈ g.chain := by
  induction g with
  | root n s =>
      simp [GS.checkParentHierarchy, GS.chain, eq_comm]
  | child n s p ih =>
      by_cases h : GS.child n s p = x
      · simp [GS.checkParentHierarchy, GS.chain, h]
      · rw [GS.checkParentHierarchy, if_neg h, ih, GS.chain]
        simp only [List.mem_cons]
        constructor
        · exact Or.inr
        · rintro (hx | hx)
          · exact absurd hx.symm h
          · exact hx

/-- A member of a chain carries the remainder of that chain as its own chain. -/
theorem GS.mem_chain_decomp (g x : GS) (h : x ∈ g.chain) :
    ∃ pre, g.chain = pre ++ x.chain := by
  induction g with
  | root n s =>
      simp [GS.chain] at h
      exact ⟨[], by simp [h]⟩
  | child n s p ih =>
      rw [GS.chain] at h
      rcases List.mem_cons.mp h with h | h
      · exact ⟨[], by simp [← h]⟩
      · obtain ⟨pre, hpre⟩ := ih h
        exact ⟨GS.child n s p :: pre, by simp [GS.chain, hpre]⟩

/-- Chain membership is monotone in chain length. -/
theorem GS.chain_length_le (g x : GS) (h : x ∈ g.chain) :
    x.chain.length ≤ g.chain.length := by
  obtain ⟨pre, hpre⟩ := g.mem_chain_decomp x h
  simp [hpre]

/-- No chain visits a node twice. -/
theorem GS.chain_nodup (g : GS) : g.chain.Nodup := by
  induction g with
  | root n s => simp [GS.chain]
  | child n s p ih =>
      rw [GS.chain]
      refine List.nodup_cons.mpr ⟨fun hmem => ?_, ih⟩
      have hle := p.chain_length_le _ hmem
      rw [GS.chain] at hle
      simp only [List.length_cons] at hle
      omega

/-- Chain membership is transitive. -/
theorem GS.chain_mem_trans (x g z : GS) (hx : x ∈ g.chain) (hg : g ∈ z.chain) :
    x ∈ z.chain := by
  obtain ⟨pre, hpre⟩ := z.mem_chain_decomp g hg
  rw [hpre]
  exact List.mem_append_right _ hx

/-- Equal chains mean equal nodes. -/
theorem GS.chain_inj (g h : GS) (he : g.chain = h.chain) : g = h := by
  have h1 := g.chain_eq
  have h2 := h.chain_eq
  rw [h1, h2] at he
  exact (List.cons.injEq _ _ _ _ ▸ he).1

/-- The parent's chain members belong to the node's chain. -/
theorem GS.chainO_parent_sub (g : GS) (x : GS) (hx : x ∈ chainO g.parent) :
    x ∈ g.chain := by
  rw [g.chain_eq]
  exact List.mem_cons_of_mem _ hx

/-- A node's parent lies on the node's chain. -/
theorem GS.parent_mem_chain (x g : GS) (hg : x.parent = some g) : g ∈ x.chain := by
  apply x.chainO_parent_sub
  rw [hg]
  simpa [chainO] using g.self_mem_chain

/-- Any result of the scan loop lies on both input chains, provided the scan
pointers do. -/
theorem fcaLoop_mem (A B : GS) :
    ∀ (f : Nat) (sa sb : Option GS) (R : GS),
      (∀ g, sa = some g → g ∈ A.chain) →
      (∀ g, sb = some g → g ∈ B.chain) →
      fcaLoop A B f sa sb = some R → R ∈ A.chain ∧ R ∈ B.chain := by
  intro f
  induction f with
  | zero =>
      intro sa sb R hA hB h
      simp [fcaLoop] at h
  | succ m ih =>
      intro sa sb R hA hB h
      cases sa with
      | none => simp [fcaLoop] at h
      | some x =>
          cases sb with
          | none => simp [fcaLoop] at h
          | some y =>
              rw [fcaLoop] at h
              by_cases h1 : B.checkParentHierarchy x = true
              · rw [if_pos h1] at h
                cases h
                exact ⟨hA R rfl, (B.cph_iff R).mp h1⟩
              · rw [if_neg h1] at h
                by_cases h2 : A.checkParentHierarchy y = true
                · rw [if_pos h2] at h
                  cases h
                  exact ⟨(A.cph_iff R).mp h2, hB R rfl⟩
                · rw [if_neg h2] at h
                  refine ih x.parent y.parent R ?_ ?_ h
                  · intro g hg
                    exact GS.chain_mem_trans g x A (x.parent_mem_chain g hg) (hA x rfl)
                  · intro g hg
                    exact GS.chain_mem_trans g y B (y.parent_mem_chain g hg) (hB y rfl)

/-- A common ancestor reported by `findCommonAncestor` lies on both chains. -/
theorem fca_mem (A B R : GS) (h : findCommonAncestor A B = some R) :
    R ∈ A.chain ∧ R ∈ B.chain := by
  unfold findCommonAncestor at h
  by_cases he : A = B
  · rw [if_pos he] at h
    cases h
    exact ⟨A.self_mem_chain, he ▸ A.self_mem_chain⟩
  · rw [if_neg he] at h
    refine fcaLoop_mem A B _ _ _ R ?_ ?_ h
    · exact fun g hg => A.parent_mem_chain g hg
    · exact fun g hg => B.parent_mem_chain g hg

/-- On disjoint hierarchies the scan loop reports no ancestor, whatever the
fuel and scan positions inside the two chains. -/
theorem fcaLoop_disjoint (A B : GS) (hdis : ∀ x ∈ A.chain, x ∉ B.chain) :
    ∀ (f : Nat) (sa sb : Option GS),
      (∀ g, sa = some g → g ∈ A.chain) →
      (∀ g, sb = some g → g ∈ B.chain) →
      fcaLoop A B f sa sb = none := by
  intro f
  induction f with
  | zero => intro sa sb _ _; simp [fcaLoop]
  | succ m ih =>
      intro sa sb hA hB
      cases sa with
      | none => simp [fcaLoop]
      | some x =>
          cases sb with
          | none => simp [fcaLoop]
          | some y =>
              rw [fcaLoop]
              have h1 : ¬ (B.checkParentHierarchy x = true) := by
                rw [GS.cph_iff]
                exact hdis x (hA x rfl)
              have h2 : ¬ (A.checkParentHierarchy y = true) := by
                rw [GS.cph_iff]
                intro hy
                exact hdis y hy (hB y rfl)
              rw [if_neg h1, if_neg h2]
              refine ih x.parent y.parent ?_ ?_
              · intro g hg
                exact GS.chain_mem_trans g x A (x.parent_mem_chain g hg) (hA x rfl)
              · intro g hg
                exact GS.chain_mem_trans g y B (y.parent_mem_chain g hg) (hB y rfl)

/-- When a chain contains a node of another chain, both chains share the
suffix below a first common node, and everything before it on either chain is
disjoint from the other chain. -/
theorem commonSuffix_base (A B : GS) (hA : A ∈ B.chain) :
    ∃ preB, B.chain = preB ++ A.chain ∧ ∀ y ∈ preB, y ∉ A.chain := by
  obtain ⟨preB, hdecomp⟩ := B.mem_chain_decomp A hA
  refine ⟨preB, hdecomp, ?_⟩
  have hnd := B.chain_nodup
  rw [hdecomp] at hnd
  have hdisj := (List.nodup_append.mp hnd).2.2
  intro y hy hyA
  exact hdisj hy hyA

/-- The shared-suffix decomposition of two chains with a common member. -/
theorem commonSuffix (A B : GS) :
    ∀ x : GS, x ∈ A.chain → x ∈ B.chain →
      ∃ (L : GS) (preA preB : List GS),
        A.chain = preA ++ L.chain ∧ B.chain = preB ++ L.chain ∧
        (∀ y ∈ preA, y ∉ B.chain) ∧ (∀ y ∈ preB, y ∉ A.chain) := by
  induction A with
  | root n s =>
      intro x hxa hxb
      simp [GS.chain] at hxa
      subst hxa
      obtain ⟨preB, hd, hp⟩ := commonSuffix_base (GS.root n s) B hxb
      exact ⟨GS.root n s, [], preB, by simp, hd, by simp, hp⟩
  | child n s p ih =>
      intro x hxa hxb
      by_cases hA : (GS.child n s p) ∈ B.chain
      · obtain ⟨preB, hd, hp⟩ := commonSuffix_base (GS.child n s p) B hA
        exact ⟨GS.child n s p, [], preB, by simp, hd, by simp, hp⟩
      · have hxp : x ∈ p.chain := by
          rw [GS.chain] at hxa
          rcases List.mem_cons.mp hxa with h | h
          · exact absurd (h ▸ hxb) hA
          · exact h
        obtain ⟨L, preA, preB, h1, h2, h3, h4⟩ := ih x hxp hxb
        refine ⟨L, GS.child n s p :: preA, preB, ?_, h2, ?_, ?_⟩
        · rw [GS.chain, h1]
          rfl
        · intro y hy
          rcases List.mem_cons.mp hy with h | h
          · exact h ▸ hA
          · exact h3 y h
        · intro y hy hyc
          rw [GS.chain] at hyc
          rcases List.mem_cons.mp hyc with h | h
          · apply hA
            rw [← h, h2]
            exact List.mem_append_left _ hy
          · exact h4 y hy h

/-- The lock-step scan finds the first common node `L`: starting from scan
positions whose remaining chains are a disjoint prefix followed by `L`'s
chain, and with enough fuel to cross the prefix on `A`'s side, the loop
returns exactly `L`. -/
theorem fcaLoop_reaches (A B L : GS) (hLA : L ∈ A.chain) (hLB : L ∈ B.chain) :
    ∀ (a2 : List GS) (f : Nat) (b2 : List GS) (sa sb : Option GS),
      chainO sa = a2 ++ L.chain → chainO sb = b2 ++ L.chain →
      (∀ y ∈ a2, y ∉ B.chain) → (∀ y ∈ b2, y ∉ A.chain) →
      a2.length < f →
      fcaLoop A B f sa sb = some L := by
  intro a2
  induction a2 with
  | nil =>
      intro f b2 sa sb hsa hsb ha hb hf
      cases sa with
      | none =>
          have h0 : L.chain = [] := by simpa [chainO] using hsa.symm
          exact absurd h0 L.chain_ne_nil
      | some x =>
          simp only [chainO, List.nil_append] at hsa
          have hxL : x = L := GS.chain_inj x L hsa
          cases sb with
          | none =>
              have h0 : b2 ++ L.chain = [] := by simpa [chainO] using hsb.symm
              exact absurd (List.append_eq_nil.mp h0).2 L.chain_ne_nil
          | some y =>
              cases f with
              | zero => omega
              | succ m =>
                  rw [fcaLoop, if_pos ((B.cph_iff x).mpr (by rw [hxL]; exact hLB))]
                  rw [hxL]
  | cons z a2' ih =>
      intro f b2 sa sb hsa hsb ha hb hf
      cases sa with
      | none =>
          have h0 : z :: a2' ++ L.chain = [] := by simpa [chainO] using hsa.symm
          simp at h0
      | some x =>
          simp only [chainO, List.cons_append] at hsa
          have hxz : x = z := (GS.chain_head x z _ hsa).symm
          have hrest : chainO x.parent = a2' ++ L.chain := by
            have hc := x.chain_eq
            rw [hsa] at hc
            exact (List.cons.injEq _ _ _ _ ▸ hc).2.symm
          cases sb with
          | none =>
              have h0 : b2 ++ L.chain = [] := by simpa [chainO] using hsb.symm
              exact absurd (List.append_eq_nil.mp h0).2 L.chain_ne_nil
          | some y =>
              cases f with
              | zero => omega
              | succ m =>
                  rw [fcaLoop]
                  have hg1 : ¬ (B.checkParentHierarchy x = true) := by
                    rw [GS.cph_iff]
                    exact hxz ▸ ha z (List.mem_cons_self z a2')
                  rw [if_neg hg1]
                  cases b2 with
                  | nil =>
                      simp only [chainO, List.nil_append] at hsb
                      have hyL : y = L := GS.chain_inj y L hsb
                      rw [if_pos ((A.cph_iff y).mpr (hyL ▸ hLA))]
                      rw [hyL]
                  | cons w b2' =>
                      simp only [chainO] at hsb
                      have hsb2 : y.chain = w :: (b2' ++ L.chain) := by
                        rw [hsb]
                        simp
                      have hyw : y = w := (GS.chain_head y w _ hsb2).symm
                      have hrestB : chainO y.parent = b2' ++ L.chain := by
                        have hc := y.chain_eq
                        rw [hsb2] at hc
                        exact (List.cons.injEq _ _ _ _ ▸ hc).2.symm
                      have hg2 : ¬ (A.checkParentHierarchy y = true) := by
                        rw [GS.cph_iff]
                        exact hyw ▸ hb w (List.mem_cons_self w b2')
                      rw [if_neg hg2]
                      refine ih m b2' x.parent y.parent hrest hrestB ?_ ?_ ?_
                      · exact fun u hu => ha u (List.mem_cons_of_mem z hu)
                      · exact fun u hu => hb u (List.mem_cons_of_mem w hu)
                      · simp only [List.length_cons] at hf
                        omega

/-- On disjoint hierarchies `findCommonAncestor` reports no ancestor. -/
theorem fca_disjoint (A B : GS) (hd : ∀ x ∈ A.chain, x ∉ B.chain) :
    findCommonAncestor A B = none := by
  have hne : A ≠ B := by
    intro he
    exact hd A A.self_mem_chain (he ▸ A.self_mem_chain)
  unfold findCommonAncestor
  rw [if_neg hne]
  refine fcaLoop_disjoint A B hd _ _ _ ?_ ?_
  · exact fun g hg => A.parent_mem_chain g hg
  · exact fun g hg => B.parent_mem_chain g hg

/-- Under a shared-suffix decomposition of the two chains whose prefixes
avoid the other chain, the scan returns the suffix head. -/
theorem fca_eq_of_suffix (A B L : GS) (preA preB : List GS)
    (h1 : A.chain = preA ++ L.chain) (h2 : B.chain = preB ++ L.chain)
    (h3 : ∀ y ∈ preA, y ∉ B.chain) (h4 : ∀ y ∈ preB, y ∉ A.chain)
    (hAB : A ∉ B.chain) (hBA : B ∉ A.chain) :
    findCommonAncestor A B = some L := by
  have hne : A ≠ B := fun he => hAB (he ▸ B.self_mem_chain)
  have hLA : L ∈ A.chain := by
    rw [h1]
    exact List.mem_append_right _ L.self_mem_chain
  have hLB : L ∈ B.chain := by
    rw [h2]
    exact List.mem_append_right _ L.self_mem_chain
  obtain ⟨preA', hpA⟩ : ∃ preA', preA = A :: preA' := by
    cases preA with
    | nil =>
        exfalso
        apply hAB
        have hAL : A = L := GS.chain_inj A L (by simpa using h1)
        rw [hAL]
        exact hLB
    | cons q pre' =>
        have hq : q = A := GS.chain_head A q (pre' ++ L.chain) h1
        exact ⟨pre', by rw [hq]⟩
  obtain ⟨preB', hpB⟩ : ∃ preB', preB = B :: preB' := by
    cases preB with
    | nil =>
        exfalso
        apply hBA
        have hBL : B = L := GS.chain_inj B L (by simpa using h2)
        rw [hBL]
        exact hLA
    | cons q pre' =>
        have hq : q = B := GS.chain_head B q (pre' ++ L.chain) h2
        exact ⟨pre', by rw [hq]⟩
  unfold findCommonAncestor
  rw [if_neg hne]
  refine fcaLoop_reaches A B L hLA hLB preA' _ preB' A.parent B.parent ?_ ?_ ?_ ?_ ?_
  · have hc := A.chain_eq
    rw [h1, hpA] at hc
    simp only [List.cons_append] at hc
    exact (List.cons.injEq _ _ _ _ ▸ hc).2.symm
  · have hc := B.chain_eq
    rw [h2, hpB] at hc
    simp only [List.cons_append] at hc
    exact (List.cons.injEq _ _ _ _ ▸ hc).2.symm
  · exact fun u hu => h3 u (hpA ▸ List.mem_cons_of_mem A hu)
  · exact fun u hu => h4 u (hpB ▸ List.mem_cons_of_mem B hu)
  · rw [h1, hpA]
    simp only [List.cons_append, List.length_cons, List.length_append]
    omega

/-- When neither state lies on the other's parent chain, the common-ancestor
scan is symmetric. -/
theorem fca_symm (A B : GS) (hAB : A ∉ B.chain) (hBA : B ∉ A.chain) :
    findCommonAncestor A B = findCommonAncestor B A := by
  by_cases hex : ∃ x, x ∈ A.chain ∧ x ∈ B.chain
  · obtain ⟨x, hxa, hxb⟩ := hex
    obtain ⟨L, preA, preB, h1, h2, h3, h4⟩ := commonSuffix A B x hxa hxb
    rw [fca_eq_of_suffix A B L preA preB h1 h2 h3 h4 hAB hBA,
        fca_eq_of_suffix B A L preB preA h2 h1 h4 h3 hBA hAB]
  · push_neg at hex
    have hd : ∀ x ∈ A.chain, x ∉ B.chain := fun x hx => hex x hx
    rw [fca_disjoint A B hd, fca_disjoint B A (fun x hx hxa => hd x hxa hx)]

/-- The exit cascade of the source invokes no callbacks at all: its
deactivation loop iterates down from `Map.values().length - 1`, which is
`NaN`, so the body never runs, and the parent recursion adds nothing. -/
theorem GS.onExit_eq_nil (g : GS) : ∀ r : Option GS, g.onExit r = [] := by
  induction g with
  | root n s => intro r; rfl
  | child n s p ih =>
      intro r
      rw [GS.onExit]
      by_cases h : some p ≠ r
      · rw [if_pos h]
        exact ih r
      · rw [if_neg h]

/-- The post-enter cascade performs exactly one post-activate per system the
enter cascade activates, in the same order. -/
theorem GS.onPostEnter_eq (g : GS) : ∀ r : Option GS,
    g.onPostEnter r = (g.onEnterUnits r).map (fun d => Ev.postActivate d.name) := by
  induction g with
  | root n s => intro r; rfl
  | child n s p ih =>
      intro r
      rw [GS.onPostEnter, GS.onEnterUnits, List.map_append]
      by_cases h : some p ≠ r
      · rw [if_pos h, if_pos h, ih]
      · rw [if_neg h, if_neg h]
        rfl

/-- A node never appears on its parent's chain. -/
theorem GS.not_mem_chainO_parent (g : GS) : g ∉ chainO g.parent := by
  have hnd := g.chain_nodup
  rw [g.chain_eq] at hnd
  exact (List.nodup_cons.mp hnd).1

/-- Every system the enter cascade bounded by a proper ancestor `R` activates
belongs to a node of the entered branch strictly below `R`: a node on the new
leaf's chain that is not on `R`'s chain. -/
theorem GS.enter_units_mem (B R : GS) :
    R ∈ B.chain → R ≠ B →
    ∀ d ∈ B.onEnterUnits (some R),
      ∃ Y, Y ∈ B.chain ∧ d ∈ Y.systems ∧ Y ∉ R.chain := by
  induction B with
  | root n s =>
      intro hR hne d _
      simp [GS.chain] at hR
      exact absurd hR hne
  | child n s p ih =>
      intro hR hne d hd
      have hRp : R ∈ p.chain := by
        rw [GS.chain] at hR
        rcases List.mem_cons.mp hR with h | h
        · exact absurd h hne
        · exact h
      have hBp : (GS.child n s p) ∉ p.chain := by
        have := (GS.child n s p).not_mem_chainO_parent
        simpa [GS.parent, chainO] using this
      have hBR : (GS.child n s p) ∉ R.chain := by
        intro hmem
        obtain ⟨pre, hpre⟩ := p.mem_chain_decomp R hRp
        apply hBp
        rw [hpre]
        exact List.mem_append_right _ hmem
      rw [GS.onEnterUnits] at hd
      by_cases hp : p = R
      · rw [if_neg (by simp [hp])] at hd
        simp only [List.nil_append] at hd
        exact ⟨GS.child n s p, (GS.child n s p).self_mem_chain, hd, hBR⟩
      · rw [if_pos (by simpa using hp)] at hd
        rcases List.mem_append.mp hd with hd | hd
        · obtain ⟨Y, hY1, hY2, hY3⟩ := ih hRp (fun h => hp h.symm) d hd
          exact ⟨Y, (GS.child n s p).chainO_parent_sub Y
            (by simpa [GS.parent, chainO] using hY1), hY2, hY3⟩
        · exact ⟨GS.child n s p, (GS.child n s p).self_mem_chain, hd, hBR⟩

/-- A successful `changeState` only installs a leaf as the pending state and
touches nothing else. -/
theorem changeState_ok (t t' : STree) (n : String) (h : changeState t n = .ok t') :
    t'.states = t.states ∧ t'.activeState = t.activeState ∧
    t'.defaultState = t.defaultState ∧
    ∃ st, t'.pendingState = some st ∧ hasChildren t.states st = false := by
  unfold changeState at h
  split at h
  · cases h
  · split at h
    · cases h
    · rename_i st _
      split at h
      · cases h
      · rename_i hch
        cases h
        refine ⟨rfl, rfl, rfl, st, rfl, ?_⟩
        simpa using hch

/-- A successful activation run emits exactly one activate event per system
in order, and can change nothing but the pending state, which it only ever
sets to a leaf (through `changeState`). -/
theorem runActivations_ok (l : List SystemDef) :
    ∀ (t t2 : STree) (evs : List Ev),
      runActivations t l = .ok (t2, evs) →
      evs = l.map (fun d => Ev.activate d.name) ∧
      t2.states = t.states ∧ t2.activeState = t.activeState ∧
      t2.defaultState = t.defaultState ∧
      (t2.pendingState = t.pendingState ∨
        ∃ st, t2.pendingState = some st ∧ hasChildren t.states st = false) := by
  induction l with
  | nil =>
      intro t t2 evs h
      rw [runActivations] at h
      cases h
      exact ⟨rfl, rfl, rfl, rfl, Or.inl rfl⟩
  | cons d rest ih =>
      intro t t2 evs h
      rw [runActivations] at h
      cases hreq : d.activateRequest with
      | none =>
          simp only [hreq] at h
          cases hrec : runActivations t rest with
          | error e =>
              simp only [hrec] at h
              cases h
          | ok pr =>
              obtain ⟨t3, evs3⟩ := pr
              simp only [hrec] at h
              cases h
              obtain ⟨he, hs, ha, hd2, hp⟩ := ih t t2 evs3 hrec
              exact ⟨by rw [he]; rfl, hs, ha, hd2, hp⟩
      | some r =>
          simp only [hreq] at h
          cases hcs : changeState t r with
          | error e =>
              simp only [hcs] at h
              cases h
          | ok t1 =>
              simp only [hcs] at h
              cases hrec : runActivations t1 rest with
              | error e =>
                  simp only [hrec] at h
                  cases h
              | ok pr =>
                  obtain ⟨t3, evs3⟩ := pr
                  simp only [hrec] at h
                  cases h
                  obtain ⟨hs1, ha1, hd1, st, hp1, hl1⟩ := changeState_ok t t1 r hcs
                  obtain ⟨he, hs, ha, hd2, hp⟩ := ih t1 t2 evs3 hrec
                  refine ⟨by rw [he]; rfl, hs.trans hs1, ha.trans ha1,
                    hd2.trans hd1, ?_⟩
                  rcases hp with hp | ⟨st2, hp2, hl2⟩
                  · exact Or.inr ⟨st, hp.trans hp1, hl1⟩
                  · exact Or.inr ⟨st2, hp2, hs1 ▸ hl2⟩

/-- A successful update run emits exactly one update event per system in
order, and can change nothing but the pending state, which it only ever sets
to a leaf (through `changeState`). -/
theorem runUpdates_ok (l : List SystemDef) :
    ∀ (t t2 : STree) (evs : List Ev),
      runUpdates t l = .ok (t2, evs) →
      evs = l.map (fun d => Ev.update d.name) ∧
      t2.states = t.states ∧ t2.activeState = t.activeState ∧
      t2.defaultState = t.defaultState ∧
      (t2.pendingState = t.pendingState ∨
        ∃ st, t2.pendingState = some st ∧ hasChildren t.states st = false) := by
  induction l with
  | nil =>
      intro t t2 evs h
      rw [runUpdates] at h
      cases h
      exact ⟨rfl, rfl, rfl, rfl, Or.inl rfl⟩
  | cons d rest ih =>
      intro t t2 evs h
      rw [runUpdates] at h
      cases hreq : d.updateRequest with
      | none =>
          simp only [hreq] at h
          cases hrec : runUpdates t rest with
          | error e =>
              simp only [hrec] at h
              cases h
          | ok pr =>
              obtain ⟨t3, evs3⟩ := pr
              simp only [hrec] at h
              cases h
              obtain ⟨he, hs, ha, hd2, hp⟩ := ih t t2 evs3 hrec
              exact ⟨by rw [he]; rfl, hs, ha, hd2, hp⟩
      | some r =>
          simp only [hreq] at h
          cases hcs : changeState t r with
          | error e =>
              simp only [hcs] at h
              cases h
          | ok t1 =>
              simp only [hcs] at h
              cases hrec : runUpdates t1 rest with
              | error e =>
                  simp only [hrec] at h
                  cases h
              | ok pr =>
                  obtain ⟨t3, evs3⟩ := pr
                  simp only [hrec] at h
                  cases h
                  obtain ⟨hs1, ha1, hd1, st, hp1, hl1⟩ := changeState_ok t t1 r hcs
                  obtain ⟨he, hs, ha, hd2, hp⟩ := ih t1 t2 evs3 hrec
                  refine ⟨by rw [he]; rfl, hs.trans hs1, ha.trans ha1,
                    hd2.trans hd1, ?_⟩
                  rcases hp with hp | ⟨st2, hp2, hl2⟩
                  · exact Or.inr ⟨st, hp.trans hp1, hl1⟩
                  · exact Or.inr ⟨st2, hp2, hs1 ▸ hl2⟩

/-- A successful taken transition: the tree keeps its states and default,
activates the taken leaf, emits the enter events followed by the post-enter
events (the exit cascade emits nothing, see `GS.onExit_eq_nil`), and any new
pending state installed by an activation request is a leaf. -/
theorem stepTake_ok (t t2 : STree) (p : GS) (evs : List Ev)
    (h : stepTake t p = .ok (t2, evs)) :
    t2.states = t.states ∧ t2.defaultState = t.defaultState ∧
    t2.activeState = some p ∧
    evs = p.onEnter (stepRoot t p) ++ p.onPostEnter (stepRoot t p) ∧
    (t2.pendingState = t.pendingState ∨
      ∃ st, t2.pendingState = some st ∧ hasChildren t.states st = false) := by
  simp only [stepTake] at h
  cases hact : t.activeState with
  | none =>
      simp only [hact] at h
      cases hrun : runActivations { t with activeState := some p }
          (p.onEnterUnits (stepRoot t p)) with
      | error e =>
          simp only [hrun] at h
          cases h
      | ok pr =>
          obtain ⟨t3, enterEvs⟩ := pr
          simp only [hrun] at h
          cases h
          obtain ⟨he, hs, ha, hd2, hp⟩ :=
            runActivations_ok (p.onEnterUnits (stepRoot t p)) _ t2 enterEvs hrun
          refine ⟨hs, hd2, ha, ?_, hp⟩
          rw [he]
          simp [GS.onEnter]
  | some a =>
      simp only [hact] at h
      cases hrun : runActivations { t with activeState := some p }
          (p.onEnterUnits (stepRoot t p)) with
      | error e =>
          simp only [hrun] at h
          cases h
      | ok pr =>
          obtain ⟨t3, enterEvs⟩ := pr
          simp only [hrun] at h
          cases h
          obtain ⟨he, hs, ha, hd2, hp⟩ :=
            runActivations_ok (p.onEnterUnits (stepRoot t p)) _ t2 enterEvs hrun
          refine ⟨hs, hd2, ha, ?_, hp⟩
          rw [he, a.onExit_eq_nil]
          simp [GS.onEnter]

/-- Committing with nothing pending does nothing and emits nothing. -/
theorem commit_pending_none (t : STree) (h : t.pendingState = none) :
    commitStateChange t = .ok (t, []) := by
  unfold commitStateChange
  rw [commitAux, h]

/-- A successful commit keeps the states and the default, leaves nothing
pending, and preserves the leaf status of the active pointer whenever the
active and pending pointers going in were none-or-leaf. -/
theorem commitAux_ok : ∀ (n : Nat) (t t' : STree) (evs : List Ev),
    commitAux t n = .ok (t', evs) →
    t'.states = t.states ∧ t'.defaultState = t.defaultState ∧
    t'.pendingState = none ∧
    (okLeafB t.states t.activeState = true →
      okLeafB t.states t.pendingState = true →
      okLeafB t.states t'.activeState = true) := by
  intro n
  induction n with
  | zero =>
      intro t t' evs h
      rw [commitAux] at h
      cases hp : t.pendingState with
      | none =>
          simp only [hp] at h
          cases h
          exact ⟨rfl, rfl, hp, fun ha _ => ha⟩
      | some p =>
          simp only [hp] at h
          cases h
  | succ m ih =>
      intro t t' evs h
      rw [commitAux] at h
      cases hp : t.pendingState with
      | none =>
          simp only [hp] at h
          cases h
          exact ⟨rfl, rfl, hp, fun ha _ => ha⟩
      | some p =>
          simp only [hp] at h
          by_cases hap : t.activeState = some p
          · rw [if_pos hap] at h
            obtain ⟨hs, hd, hpn, hleaf⟩ := ih _ t' evs h
            refine ⟨hs, hd, hpn, fun ha _ => ?_⟩
            exact hleaf ha rfl
          · rw [if_neg hap] at h
            cases hst : stepTake { t with pendingState := none } p with
            | error e =>
                simp only [hst] at h
                cases h
            | ok pr =>
                obtain ⟨t3, evs3⟩ := pr
                simp only [hst] at h
                cases hca : commitAux t3 m with
                | error e =>
                    simp only [hca] at h
                    cases h
                | ok pr2 =>
                    obtain ⟨t4, evs4⟩ := pr2
                    simp only [hca] at h
                    cases h
                    obtain ⟨hs3, hd3, ha3, he3, hp3⟩ :=
                      stepTake_ok { t with pendingState := none } t3 p evs3 hst
                    obtain ⟨hs4, hd4, hp4, hleaf4⟩ := ih t3 t' evs4 hca
                    refine ⟨hs4.trans hs3, hd4.trans hd3, hp4,
                      fun ha hpd => ?_⟩
                    have h1 : okLeafB t3.states t3.activeState = true := by
                      rw [ha3, hs3]
                      exact hpd
                    have h2 : okLeafB t3.states t3.pendingState = true := by
                      rcases hp3 with h0 | ⟨st, hst2, hch⟩
                      · rw [h0]
                        rfl
                      · rw [hst2]
                        simp only [okLeafB, hs3]
                        simp [hch]
                    have h3 := hleaf4 h1 h2
                    rw [hs3] at h3
                    exact h3

/-- If after `n` simulated takes a pending state still remains, the counted
commit with bound `n` fails with the cascade-limit error. -/
theorem commitAux_limit_of_runTakes : ∀ (n : Nat) (t tf : STree),
    runTakes t n = .ok tf → tf.pendingState ≠ none →
    commitAux t n = .error .cascadeLimit := by
  intro n
  induction n with
  | zero =>
      intro t tf h hne
      rw [runTakes] at h
      cases h
      rw [commitAux]
      cases hp : t.pendingState with
      | none => exact absurd hp hne
      | some p => rfl
  | succ m ih =>
      intro t tf h hne
      rw [runTakes] at h
      rw [commitAux]
      cases hp : t.pendingState with
      | none =>
          simp only [hp] at h ⊢
          cases h
          exact absurd hp hne
      | some p =>
          simp only [hp] at h ⊢
          by_cases hap : t.activeState = some p
          · rw [if_pos hap] at h ⊢
            exact ih _ tf h hne
          · rw [if_neg hap] at h ⊢
            cases hst : stepTake { t with pendingState := none } p with
            | error e =>
                simp only [hst] at h
                cases h
            | ok pr =>
                obtain ⟨t3, evs3⟩ := pr
                simp only [hst] at h ⊢
                rw [ih t3 tf h hne]
  
/-- If the simulated takes finish within `n` with nothing pending, the
counted commit with bound `n` succeeds and ends in the same tree. -/
theorem commitAux_ok_of_runTakes : ∀ (n : Nat) (t tf : STree),
    runTakes t n = .ok tf → tf.pendingState = none →
    ∃ evs, commitAux t n = .ok (tf, evs) := by
  intro n
  induction n with
  | zero =>
      intro t tf h hpn
      rw [runTakes] at h
      cases h
      rw [commitAux]
      rw [hpn]
      exact ⟨[], rfl⟩
  | succ m ih =>
      intro t tf h hpn
      rw [runTakes] at h
      rw [commitAux]
      cases hp : t.pendingState with
      | none =>
          simp only [hp] at h ⊢
          cases h
          exact ⟨[], rfl⟩
      | some p =>
          simp only [hp] at h ⊢
          by_cases hap : t.activeState = some p
          · rw [if_pos hap] at h ⊢
            exact ih _ tf h hpn
          · rw [if_neg hap] at h ⊢
            cases hst : stepTake { t with pendingState := none } p with
            | error e =>
                simp only [hst] at h
                cases h
            | ok pr =>
                obtain ⟨t3, evs3⟩ := pr
                simp only [hst] at h ⊢
                obtain ⟨evs4, hca⟩ := ih t3 tf h hpn
                rw [hca]
                exact ⟨evs3 ++ evs4, rfl⟩

/-- The per-frame update cascade visits the active state's chain from the
root down to the leaf: parent recursion first, own systems last. -/
theorem GS.onUpdateUnits_char (g : GS) :
    g.onUpdateUnits
      = g.chain.reverse.flatMap (fun X => X.systems.filter (fun d => d.hasUpdate)) := by
  induction g with
  | root n s => simp [GS.onUpdateUnits, GS.chain, GS.systems]
  | child n s p ih =>
      rw [GS.onUpdateUnits, GS.chain, ih]
      simp [GS.systems]

/-- The post-update cascade visits the chain in the same root-to-leaf order
as the primary update cascade. -/
theorem GS.onPostUpdateUnits_char (g : GS) :
    g.onPostUpdateUnits
      = g.chain.reverse.flatMap (fun X => X.systems.filter (fun d => d.hasPostUpdate)) := by
  induction g with
  | root n s => simp [GS.onPostUpdateUnits, GS.chain, GS.systems]
  | child n s p ih =>
      rw [GS.onPostUpdateUnits, GS.chain, ih]
      simp [GS.systems]

/-- Every engine operation preserves the leaf invariant on the three state
pointers. -/
theorem treeStep_leafInv (t t' : STree) (hstep : TreeStep t t')
    (hinv : leafInvB t = true) : leafInvB t' = true := by
  have hread : (okLeafB t.states t.activeState = true ∧
      okLeafB t.states t.pendingState = true) ∧
      okLeafB t.states t.defaultState = true := by
    simpa [leafInvB, Bool.and_eq_true] using hinv
  obtain ⟨⟨hA, hP⟩, hD⟩ := hread
  cases hstep with
  | change n h =>
      obtain ⟨hs, ha, hd, st, hp, hch⟩ := changeState_ok t t' n h
      simp only [leafInvB, Bool.and_eq_true, hs, ha, hd, hp]
      refine ⟨⟨hA, ?_⟩, hD⟩
      simp [okLeafB, hch]
  | commit evs h =>
      obtain ⟨hs, hd, hp, hleaf⟩ := commitAux_ok MAXIMUM_STATE_CHANGES t t' evs h
      simp only [leafInvB, Bool.and_eq_true, hs, hd, hp]
      exact ⟨⟨hleaf hA hP, rfl⟩, hD⟩
  | update evs h =>
      unfold treeOnUpdate at h
      cases hc1 : commitStateChange t with
      | error e =>
          rw [hc1] at h
          cases h
      | ok pr1 =>
          obtain ⟨t1, e1⟩ := pr1
          rw [hc1] at h
          obtain ⟨hs1, hd1, hp1, hleaf1⟩ :=
            commitAux_ok MAXIMUM_STATE_CHANGES t t1 e1 hc1
          have hA1 : okLeafB t1.states t1.activeState = true := by
            rw [hs1]
            exact hleaf1 hA hP
          have hP1 : okLeafB t1.states t1.pendingState = true := by
            rw [hp1]
            rfl
          have hD1 : okLeafB t1.states t1.defaultState = true := by
            rw [hs1, hd1]
            exact hD
          cases hact : t1.activeState with
          | none =>
              simp only [hact] at h
              cases hc2 : commitStateChange t1 with
              | error e =>
                  rw [hc2] at h
                  cases h
              | ok pr2 =>
                  obtain ⟨t2, e2⟩ := pr2
                  rw [hc2] at h
                  cases h
                  obtain ⟨hs2, hd2, hp2, hleaf2⟩ :=
                    commitAux_ok MAXIMUM_STATE_CHANGES t1 t' e2 hc2
                  simp only [leafInvB, Bool.and_eq_true, hs2, hd2, hp2]
                  exact ⟨⟨hleaf2 hA1 hP1, rfl⟩, hD1⟩
          | some a =>
              simp only [hact] at h
              cases hru : runUpdates t1 a.onUpdateUnits with
              | error e =>
                  simp only [hru] at h
                  cases h
              | ok pr2 =>
                  obtain ⟨t2, eU⟩ := pr2
                  simp only [hru] at h
                  obtain ⟨heU, hs2, ha2, hd2, hp2⟩ :=
                    runUpdates_ok a.onUpdateUnits t1 t2 eU hru
                  have hA2 : okLeafB t2.states t2.activeState = true := by
                    rw [hs2, ha2]
                    exact hA1
                  have hP2 : okLeafB t2.states t2.pendingState = true := by
                    rcases hp2 with h0 | ⟨st, hst, hch⟩
                    · rw [hs2, h0]
                      exact hP1
                    · rw [hst]
                      simp [okLeafB, hs2, hch]
                  have hD2 : okLeafB t2.states t2.defaultState = true := by
                    rw [hs2, hd2]
                    exact hD1
                  cases hc2 : commitStateChange t2 with
                  | error e =>
                      simp only [hc2] at h
                      cases h
                  | ok pr3 =>
                      obtain ⟨t3, e2⟩ := pr3
                      simp only [hc2] at h
                      cases h
                      obtain ⟨hs3, hd3, hp3, hleaf3⟩ :=
                        commitAux_ok MAXIMUM_STATE_CHANGES t2 t' e2 hc2
                      simp only [leafInvB, Bool.and_eq_true, hs3, hd3, hp3]
                      exact ⟨⟨hleaf3 hA2 hP2, rfl⟩, hD2⟩
  | init evs h =>
      unfold onInit at h
      obtain ⟨hs, hd, hp, hleaf⟩ :=
        commitAux_ok MAXIMUM_STATE_CHANGES _ t' evs h
      simp only [leafInvB, Bool.and_eq_true, hs, hd, hp]
      exact ⟨⟨hleaf hA hD, rfl⟩, hD⟩

/-- The leaf invariant holds in every tree reachable from a tree satisfying
it. -/
theorem reaches_leafInv (t0 t : STree) (hr : Reaches t0 t)
    (h0 : leafInvB t0 = true) : leafInvB t = true := by
  induction hr with
  | refl => exact h0
  | tail _ hstep ih => exact treeStep_leafInv _ _ hstep ih

/-- In a duplicate-free flattened list, no element can come from two distinct
members of the outer list. -/
theorem flatMap_nodup_unique {α β : Type} (f : α → List β) (l : List α)
    (hnd : (l.flatMap f).Nodup) (X Y : α) (hX : X ∈ l) (hY : Y ∈ l)
    (hne : X ≠ Y) (b : β) (hbX : b ∈ f X) (hbY : b ∈ f Y) : False := by
  obtain ⟨l1, l2, hsplit⟩ := List.append_of_mem hX
  subst hsplit
  rw [List.flatMap_append, List.flatMap_cons] at hnd
  rcases List.mem_append.mp hY with hY1 | hY2
  · have hdisj := (List.nodup_append.mp hnd).2.2
    exact hdisj (List.mem_flatMap.mpr ⟨Y, hY1, hbY⟩)
      (List.mem_append_left _ hbX)
  · rcases List.mem_cons.mp hY2 with h | hY3
    · exact hne h.symm
    · have hnd2 := (List.nodup_append.mp hnd).2.1
      have hdisj := (List.nodup_append.mp hnd2).2.2
      exact hdisj hbX (List.mem_flatMap.mpr ⟨Y, hY3, hbY⟩)

/-- C1: the claim states that for every node with attached units the exit
cascade deactivates them in exact reverse attachment order.  Evaluating the
embedded code at a node with two attached units: the enter cascade activates
both units in attachment order, but the exit cascade invokes no deactivation
at all — its reverse-order loop reads `Map.values().length`, which is
undefined, so the loop body never runs — contradicting the reverse-order
deactivation stated by the claim and by the code's own comment. -/
theorem C1_exit_cascade_dead_loop :
    exMenu.onEnter none = [Ev.activate "u1", Ev.activate "u2"] ∧
    exMenu.onExit none = [] ∧
    exMenu.onExit none ≠ [Ev.deactivate "u2", Ev.deactivate "u1"] :=
  ⟨rfl, rfl, by decide⟩

/-- C6 counterexample: on the three-node chain `P ← A ← B` the scan is not
symmetric: `findCommonAncestor(A,B)` is `P` while `findCommonAncestor(B,A)`
is `A`, because when one argument is an ancestor of the other the first
membership test fires at different candidates depending on argument order. -/
theorem C6_counterexample :
    findCommonAncestor chA chB ≠ findCommonAncestor chB chA := by
  decide

/-- C6 (amended): `findCommonAncestor` is symmetric for all pairs of states
of which neither lies in the other's parent hierarchy — in particular for
any two distinct leaves; it returns its argument on identical arguments; and
it returns none on disjoint hierarchies. -/
theorem C6_amended_common_ancestor (A B : GS) :
    (B.checkParentHierarchy A = false → A.checkParentHierarchy B = false →
      findCommonAncestor A B = findCommonAncestor B A) ∧
    findCommonAncestor A A = some A ∧
    ((∀ x ∈ A.chain, x ∉ B.chain) → findCommonAncestor A B = none) := by
  refine ⟨?_, ?_, ?_⟩
  · intro h1 h2
    apply fca_symm
    · intro hm
      rw [(B.cph_iff A).mpr hm] at h1
      cases h1
    · intro hm
      rw [(A.cph_iff B).mpr hm] at h2
      cases h2
  · simp [findCommonAncestor]
  · exact fca_disjoint A B

/-- C6 witness: the two sibling leaves of the example tree give the same
common ancestor in either argument order. -/
theorem C6_amended_common_ancestor_witness :
    findCommonAncestor exLeafA exLeafB = findCommonAncestor exLeafB exLeafA :=
  (C6_amended_common_ancestor exLeafA exLeafB).1 (by decide) (by decide)

/-- Taking a self-transition consumes exactly one loop iteration doing
nothing. -/
theorem commitAux_self (t : STree) (p : GS) (m : Nat)
    (hp : t.pendingState = some p) (ha : t.activeState = some p) :
    commitAux t (m + 1) = commitAux { t with pendingState := none } m := by
  rw [commitAux]
  simp only [hp]
  rw [if_pos ha]

/-- C9: a commit whose taken pending state equals the active state is a
silent no-op: it returns normally with no events, clears the pending state
and leaves the active state untouched. -/
theorem C9_self_transition_noop (t : STree) (p : GS)
    (hp : t.pendingState = some p) (ha : t.activeState = some p) :
    commitStateChange t = .ok ({ t with pendingState := none }, []) := by
  unfold commitStateChange
  rw [show MAXIMUM_STATE_CHANGES = 9 + 1 from rfl, commitAux_self t p 9 hp ha,
    commitAux]

/-- C9 witness: self-transition to the already-active leaf of the example
tree. -/
theorem C9_self_transition_noop_witness :
    commitStateChange exSelfTree = .ok ({ exSelfTree with pendingState := none }, []) :=
  C9_self_transition_noop exSelfTree exLeafA rfl rfl

/-- C10: a commit that returns normally leaves no pending state, so an
immediately following commit emits no events and changes nothing. -/
theorem C10_commit_idempotent (t t' : STree) (evs : List Ev)
    (h : commitStateChange t = .ok (t', evs)) :
    t'.pendingState = none ∧ commitStateChange t' = .ok (t', []) := by
  obtain ⟨_, _, hp, _⟩ := commitAux_ok MAXIMUM_STATE_CHANGES t t' evs h
  exact ⟨hp, commit_pending_none t' hp⟩

/-- C10 witness: committing the pending sibling transition of the example
tree, then committing again. -/
theorem C10_commit_idempotent_witness :
    exAfterSwitch.pendingState = none ∧
    commitStateChange exAfterSwitch = .ok (exAfterSwitch, []) :=
  C10_commit_idempotent exSwitchTree exAfterSwitch
    [Ev.activate "unitB", Ev.postActivate "unitB"] rfl

/-- C3: within one commit call, if after ten simulated takes a transition is
still pending (i.e. the run of requests needs more than ten takes), the
commit fails with the cascade-limit error instead of looping; if the takes
finish within ten, the commit returns normally. -/
theorem C3_cascade_limit (t tf : STree)
    (h : runTakes t MAXIMUM_STATE_CHANGES = .ok tf) :
    (tf.pendingState ≠ none → commitStateChange t = .error .cascadeLimit) ∧
    (tf.pendingState = none → ∃ evs, commitStateChange t = .ok (tf, evs)) :=
  ⟨fun hne => commitAux_limit_of_runTakes MAXIMUM_STATE_CHANGES t tf h hne,
   fun hpn => commitAux_ok_of_runTakes MAXIMUM_STATE_CHANGES t tf h hpn⟩

/-- C3 witness: the flip-flop tree whose units re-request a transition on
every activation still has a pending transition after ten takes, and its
commit fails with the cascade-limit error. -/
theorem C3_cascade_limit_witness :
    runTakes ffTree MAXIMUM_STATE_CHANGES = .ok ffFinal ∧
    ffFinal.pendingState ≠ none ∧
    commitStateChange ffTree = .error .cascadeLimit :=
  ⟨rfl, by decide, (C3_cascade_limit ffTree ffFinal rfl).1 (by decide)⟩

/-- C8: a transition request to a known non-leaf fails with the not-a-leaf
error, and a request to an unknown name fails with the missing-node error;
in both cases no tree with a new pending state is produced. -/
theorem C8_change_state_errors (t : STree) (n : String) (hn : ¬ n = "") :
    (∀ st, getState t n = some st → hasChildren t.states st = true →
      changeState t n = .error .notLeaf) ∧
    (getState t n = none → changeState t n = .error .missingNode) := by
  constructor
  · intro st hst hch
    simp [changeState, hn, hst, hch]
  · intro hst
    simp [changeState, hn, hst]

/-- C8 witness: in the example tree, requesting the non-leaf `shared` and
the unknown `nope`. -/
theorem C8_change_state_errors_witness :
    changeState exSibTree "shared" = .error .notLeaf ∧
    changeState exSibTree "nope" = .error .missingNode :=
  ⟨(C8_change_state_errors exSibTree "shared" (by decide)).1 exShared rfl rfl,
   (C8_change_state_errors exSibTree "nope" (by decide)).2 rfl⟩

/-- C5 counterexample: a description that names no main state selects its
first state as the default with no leaf check; with a description whose
first state has a child, initialisation makes that non-leaf the active
state, violating the leaf invariant the claim states. -/
theorem C5_counterexample :
    selectDefaultName none ["root", "kid"] = some "root" ∧
    onInit badTree
      = .ok ({ states := [badRoot, badKid], activeState := some badRoot,
               pendingState := none, defaultState := some badRoot }, []) ∧
    hasChildren [badRoot, badKid] badRoot = true :=
  ⟨rfl, rfl, rfl⟩

/-- C5 (amended): provided the default state is none or a leaf (which the
constructor does not check — see the counterexample), every tree reachable
through requests, commits, updates and initialisation keeps the active state
none or a leaf. -/
theorem C5_amended_leaf_invariant (t0 t : STree) (h0 : leafInvB t0 = true)
    (hr : Reaches t0 t) :
    ∀ a, t.activeState = some a → hasChildren t.states a = false := by
  intro a ha
  have h := reaches_leafInv t0 t hr h0
  have h2 : okLeafB t.states t.activeState = true := by
    rw [leafInvB, Bool.and_eq_true, Bool.and_eq_true] at h
    exact h.1.1
  rw [ha] at h2
  simpa [okLeafB] using h2

/-- C5 witness: the example tree with an active leaf satisfies the invariant
and its active state indeed has no children. -/
theorem C5_amended_leaf_invariant_witness :
    leafInvB exFrameTree = true ∧
    hasChildren exFrameTree.states exChild1 = false :=
  ⟨rfl, C5_amended_leaf_invariant exFrameTree exFrameTree rfl
    Relation.ReflTransGen.refl exChild1 rfl⟩

/-- C7: a successful taken transition emits the enter cascade's activations
and then, over exactly the same units of the new branch in the same
ancestor-to-leaf order, the post-enter cascade's post-activations; every
unit receiving a post-activate was already activated earlier in the same
trace. -/
theorem C7_post_enter_cascade (t t2 : STree) (B : GS) (evs : List Ev)
    (h : stepTake t B = .ok (t2, evs)) :
    evs = (B.onEnterUnits (stepRoot t B)).map (fun d => Ev.activate d.name)
        ++ (B.onEnterUnits (stepRoot t B)).map (fun d => Ev.postActivate d.name) ∧
    ∀ u, Ev.postActivate u ∈ evs →
      Ev.activate u
        ∈ (B.onEnterUnits (stepRoot t B)).map (fun d => Ev.activate d.name) := by
  obtain ⟨_, _, _, he, _⟩ := stepTake_ok t t2 B evs h
  have hpe := B.onPostEnter_eq (stepRoot t B)
  constructor
  · rw [he, hpe]
    rfl
  · intro u hu
    rw [he] at hu
    rcases List.mem_append.mp hu with hu | hu
    · rw [GS.onEnter] at hu
      simp at hu
    · rw [hpe] at hu
      simp only [List.mem_map] at hu
      obtain ⟨d, hd, hdu⟩ := hu
      have : d.name = u := by
        cases hdu
        rfl
      exact List.mem_map.mpr ⟨d, hd, by rw [this]⟩

/-- C7 witness: the sibling transition of the example tree activates `unitB`
and then post-activates it. -/
theorem C7_post_enter_cascade_witness :
    ([Ev.activate "unitB", Ev.postActivate "unitB"] : List Ev)
      = (exLeafB.onEnterUnits (stepRoot exSibTree exLeafB)).map
          (fun d => Ev.activate d.name)
        ++ (exLeafB.onEnterUnits (stepRoot exSibTree exLeafB)).map
          (fun d => Ev.postActivate d.name) ∧
    ∀ u, Ev.postActivate u ∈ ([Ev.activate "unitB", Ev.postActivate "unitB"] : List Ev) →
      Ev.activate u
        ∈ (exLeafB.onEnterUnits (stepRoot exSibTree exLeafB)).map
            (fun d => Ev.activate d.name) :=
  C7_post_enter_cascade exSibTree exAfterSwitch exLeafB
    [Ev.activate "unitB", Ev.postActivate "unitB"] rfl

/-- C4: in a committed transition from active leaf `A` to `B` with computed
branch root `R` (a proper ancestor of `B`), no unit attached to `R` or to
any ancestor of `R` receives an activate or a deactivate, provided unit
names along the entered branch are unique (the engine enforces global unit
name uniqueness at construction). -/
theorem C4_ancestor_preservation (t t2 : STree) (A B R : GS) (evs : List Ev)
    (hA : t.activeState = some A)
    (hstep : stepTake t B = .ok (t2, evs))
    (hR : findCommonAncestor A B = some R)
    (hRB : R ≠ B)
    (hnd : (B.chain.flatMap (fun Y => Y.systems.map (fun d => d.name))).Nodup) :
    ∀ X ∈ R.chain, ∀ d ∈ X.systems,
      Ev.activate d.name ∉ evs ∧ Ev.deactivate d.name ∉ evs := by
  intro X hX d hd
  obtain ⟨_, _, _, he, _⟩ := stepTake_ok t t2 B evs hstep
  have hroot : stepRoot t B = some R := by
    simp only [stepRoot, hA]
    exact hR
  rw [hroot] at he
  have hpe := B.onPostEnter_eq (some R)
  have hRmem : R ∈ B.chain := (fca_mem A B R hR).2
  constructor
  · intro hmem
    rw [he] at hmem
    have hmem2 : Ev.activate d.name ∈ B.onEnter (some R) := by
      rcases List.mem_append.mp hmem with h1 | h1
      · exact h1
      · rw [hpe] at h1
        simp at h1
    rw [GS.onEnter] at hmem2
    simp only [List.mem_map] at hmem2
    obtain ⟨s, hs, hsname⟩ := hmem2
    have hname : s.name = d.name := by
      injection hsname
    obtain ⟨Y, hY1, hY2, hY3⟩ := B.enter_units_mem R hRmem hRB s hs
    have hXB : X ∈ B.chain := GS.chain_mem_trans X R B hX hRmem
    have hXY : X ≠ Y := fun hxy => hY3 (hxy ▸ hX)
    exact flatMap_nodup_unique _ _ hnd X Y hXB hY1 hXY d.name
      (List.mem_map.mpr ⟨d, hd, rfl⟩)
      (List.mem_map.mpr ⟨s, hY2, hname⟩)
  · intro hmem
    rw [he] at hmem
    rcases List.mem_append.mp hmem with h1 | h1
    · rw [GS.onEnter] at h1
      simp at h1
    · rw [hpe] at h1
      simp at h1

/-- C4 witness: switching between the two sibling leaves below `shared`
neither activates nor deactivates the ancestor's unit. -/
theorem C4_ancestor_preservation_witness :
    Ev.activate "sharedUnit" ∉ ([Ev.activate "unitB", Ev.postActivate "unitB"] : List Ev) ∧
    Ev.deactivate "sharedUnit" ∉ ([Ev.activate "unitB", Ev.postActivate "unitB"] : List Ev) :=
  C4_ancestor_preservation exSibTree exAfterSwitch exLeafA exLeafB exShared
    [Ev.activate "unitB", Ev.postActivate "unitB"]
    rfl rfl rfl (by decide) (by decide)
    exShared (by decide) (passiveSys "sharedUnit") (by decide)

/-- C2 counterexample: with a per-frame unit on the root `main_state` and one
on the active leaf `child1`, the per-frame trace runs the root's unit before
the leaf's in both passes — the opposite of the leaf-then-ancestor order the
claim states, because `GameState.onUpdate` recurses into the parent before
updating its own systems. -/
theorem C2_counterexample :
    treeOnUpdate exFrameTree
      = .ok (exFrameTree,
          [Ev.update "mainUnit", Ev.update "childUnit",
           Ev.postUpdate "mainUnit", Ev.postUpdate "childUnit"]) ∧
    ([Ev.update "mainUnit", Ev.update "childUnit",
      Ev.postUpdate "mainUnit", Ev.postUpdate "childUnit"] : List Ev)
      ≠ [Ev.update "childUnit", Ev.update "mainUnit",
         Ev.postUpdate "childUnit", Ev.postUpdate "mainUnit"] :=
  ⟨rfl, by decide⟩

/-- C2 (amended): a successful per-frame update first commits, then — when a
state is active — walks the active state's chain from the *root down to the
leaf* (ancestor-then-leaf) invoking the per-frame callback of each system
implementing it, then runs a second post-update pass in the same
root-to-leaf order, then commits again. -/
theorem C2_amended_update_order (t t' : STree) (evs : List Ev)
    (h : treeOnUpdate t = .ok (t', evs)) :
    ∃ t1 e1, commitStateChange t = .ok (t1, e1) ∧
      ((t1.activeState = none ∧ ∃ e2, evs = e1 ++ e2 ∧
          commitStateChange t1 = .ok (t', e2)) ∨
       (∃ a t2 e2, t1.activeState = some a ∧
          evs = e1
            ++ a.chain.reverse.flatMap
                (fun X => (X.systems.filter (fun d => d.hasUpdate)).map
                  (fun d => Ev.update d.name))
            ++ a.chain.reverse.flatMap
                (fun X => (X.systems.filter (fun d => d.hasPostUpdate)).map
                  (fun d => Ev.postUpdate d.name))
            ++ e2 ∧
          commitStateChange t2 = .ok (t', e2))) := by
  unfold treeOnUpdate at h
  cases hc1 : commitStateChange t with
  | error e =>
      rw [hc1] at h
      cases h
  | ok pr1 =>
      obtain ⟨t1, e1⟩ := pr1
      rw [hc1] at h
      refine ⟨t1, e1, rfl, ?_⟩
      cases hact : t1.activeState with
      | none =>
          simp only [hact] at h
          cases hc2 : commitStateChange t1 with
          | error e =>
              simp only [hc2] at h
              cases h
          | ok pr2 =>
              obtain ⟨t2, e2⟩ := pr2
              simp only [hc2] at h
              cases h
              exact Or.inl ⟨rfl, e2, rfl, rfl⟩
      | some a =>
          simp only [hact] at h
          cases hru : runUpdates t1 a.onUpdateUnits with
          | error e =>
              simp only [hru] at h
              cases h
          | ok pr2 =>
              obtain ⟨t2, eU⟩ := pr2
              simp only [hru] at h
              obtain ⟨heU, _, _, _, _⟩ := runUpdates_ok a.onUpdateUnits t1 t2 eU hru
              cases hc2 : commitStateChange t2 with
              | error e =>
                  simp only [hc2] at h
                  cases h
              | ok pr3 =>
                  obtain ⟨t3, e2⟩ := pr3
                  simp only [hc2] at h
                  cases h
                  refine Or.inr ⟨a, t2, e2, rfl, ?_, hc2⟩
                  have hmap1 : eU = a.chain.reverse.flatMap
                      (fun X => (X.systems.filter (fun d => d.hasUpdate)).map
                        (fun d => Ev.update d.name)) := by
                    rw [heU, a.onUpdateUnits_char, List.map_flatMap]
                  have hmap2 : List.map (fun d => Ev.postUpdate d.name) a.onPostUpdateUnits
                      = a.chain.reverse.flatMap
                        (fun X => (X.systems.filter (fun d => d.hasPostUpdate)).map
                          (fun d => Ev.postUpdate d.name)) := by
                    rw [a.onPostUpdateUnits_char, List.map_flatMap]
                  rw [hmap1, hmap2]

/-- C2 witness: the decomposition instantiated at the two-level example
tree. -/
theorem C2_amended_update_order_witness :
    ∃ t1 e1, commitStateChange exFrameTree = .ok (t1, e1) ∧
      ((t1.activeState = none ∧ ∃ e2,
          ([Ev.update "mainUnit", Ev.update "childUnit",
            Ev.postUpdate "mainUnit", Ev.postUpdate "childUnit"] : List Ev)
            = e1 ++ e2 ∧
          commitStateChange t1 = .ok (exFrameTree, e2)) ∨
       (∃ a t2 e2, t1.activeState = some a ∧
          ([Ev.update "mainUnit", Ev.update "childUnit",
            Ev.postUpdate "mainUnit", Ev.postUpdate "childUnit"] : List Ev)
            = e1
            ++ a.chain.reverse.flatMap
                (fun X => (X.systems.filter (fun d => d.hasUpdate)).map
                  (fun d => Ev.update d.name))
            ++ a.chain.reverse.flatMap
                (fun X => (X.systems.filter (fun d => d.hasPostUpdate)).map
                  (fun d => Ev.postUpdate d.name))
            ++ e2 ∧
          commitStateChange t2 = .ok (exFrameTree, e2))) :=
  C2_amended_update_order exFrameTree exFrameTree
    [Ev.update "mainUnit", Ev.update "childUnit",
     Ev.postUpdate "mainUnit", Ev.postUpdate "childUnit"] rfl
